import Mathlib

/-!
Verification development for the loop-analysis core of the signal-flow-graph
repository (src/sfg.js together with src/datamodel.js).

The JavaScript core is shallowly embedded: each JS function becomes an
executable Lean definition over explicit state.  JS arrays become `List`,
mutation becomes state passing, a thrown `TypeError` becomes `Option.none`,
and the external symbolic-arithmetic engine (`Expression` from RWalgebra) is
embedded as a free term algebra `Expression` together with an evaluation into
`Int` under an assignment of the (opaque) weight strings.
-/

/-- Free term algebra standing for the external symbolic `Expression` engine.
`var w` is the expression obtained by parsing the weight string `w` (the code
always passes a parenthesised weight, which parses to the weight itself);
`const n` is `new Expression(n)` (and `new Expression()` is the additive
identity, i.e. `const 0`). -/
inductive Expression where
  | const : Int → Expression
  | var : String → Expression
  | add : Expression → Expression → Expression
  | sub : Expression → Expression → Expression
  | mul : Expression → Expression → Expression
deriving Repr, DecidableEq

/-- Evaluation of a symbolic expression under an assignment of weight
strings to integers.  The external engine's `add`/`subtract`/`multiply` are
the ring operations, so two expressions that the engine treats as equal
evaluate equally under every assignment. -/
def Expression.eval (σ : String → Int) : Expression → Int
  | .const n => n
  | .var s => σ s
  | .add a b => a.eval σ + b.eval σ
  | .sub a b => a.eval σ - b.eval σ
  | .mul a b => a.eval σ * b.eval σ

/-- `Edge` from src/datamodel.js: `weight`, `startNode`, `endNode` are the
constructor fields; the constructor sets `id = startNode + endNode`, but the
graph-builder may afterwards overwrite `id` (e.g. appending a numeric suffix
for parallel edges), so `id` is kept as an independent field. -/
structure Edge where
  weight : String
  startNode : String
  endNode : String
  id : String
deriving Repr, DecidableEq

/-- `new Edge(weight, startNode, endNode)` — the constructor computes
`id = startNode + endNode`. -/
def Edge.make (weight startNode endNode : String) : Edge :=
  { weight := weight, startNode := startNode, endNode := endNode,
    id := startNode ++ endNode }

/-- `Edge.prototype.copy`: `new Edge(this.weight, this.startNode,
this.endNode)` — note the id is recomputed by the constructor, not copied. -/
def Edge.copy (e : Edge) : Edge :=
  Edge.make e.weight e.startNode e.endNode

/-- `Node` from src/datamodel.js: string id, optional constant value, and an
ordered list of outgoing edges.  The core never reads `value`. -/
structure Node where
  id : String
  value : Option Int
  outgoingEdges : List Edge
deriving Repr, DecidableEq

/-- `Node.prototype.copy`: a fresh node with the same id and value and a
freshly-owned list of edge copies. -/
def Node.copy (n : Node) : Node :=
  { id := n.id, value := n.value, outgoingEdges := n.outgoingEdges.map Edge.copy }

/-- `calculateLoopGain(edges)` (sfg.js:1000-1011): starts from
`new Expression(1)` and multiplies in each edge's (parenthesised) weight. -/
def calculateLoopGain (edges : List Edge) : Expression :=
  edges.foldl (fun ex e => Expression.mul ex (Expression.var e.weight)) (Expression.const 1)

/-- `calculateLoopGain` as invoked on the numerator side, where the edge list
may contain `undefined` entries (a JS `TypeError` when an entry's `weight` is
read); `none` models the thrown `TypeError`. -/
def calculateLoopGainOpt (edges : List (Option Edge)) : Option Expression :=
  edges.foldlM (fun ex e? =>
    match e? with
    | none => none
    | some e => some (Expression.mul ex (Expression.var e.weight))) (Expression.const 1)

/-- Mutable traversal state of `findAllLoops`/`dfsFindLoops` (sfg.js:719-784):
the shared `visited`, `stack` and `cycles` arrays. -/
structure DfsState where
  visited : List String
  stack : List Edge
  cycles : List (List Edge)
deriving Repr, DecidableEq

/-- One iteration of the edge loop of `dfsFindLoops` (sfg.js:757-778):
resolve the destination (skipping the edge when it does not resolve), record
a cycle when the destination is the root (pushing the edge, copying the
stack, popping the edge — net effect: append `stack ++ [edge]` to `cycles`),
skip already-visited destinations, and otherwise push the edge and recurse
(`rec` is the recursive call at the next smaller fuel). -/
def dfsEdgeStep (nodes : List Node) (startId : String)
    (rec : Node → DfsState → DfsState) (st : DfsState) (edge : Edge) : DfsState :=
  match nodes.find? (fun x => x.id == edge.endNode) with
  | none => st
  | some v =>
    if v.id = startId then
      { st with cycles := st.cycles ++ [st.stack ++ [edge]] }
    else if st.visited.contains v.id then st
    else rec v { st with stack := st.stack ++ [edge] }

/-- `dfsFindLoops(nodes, curr, startId, visited, stack, cycles)`
(sfg.js:752-784).  Entry pushes `curr.id` onto `visited`; the edge loop is
`dfsEdgeStep`; on exit, a non-root call pops both the entering edge and its
own visited mark, while the root call pops nothing.  `fuel` bounds the
recursion depth: every recursive call enters a node of `nodes` whose id is
not yet in `visited`, so the depth never exceeds the number of node ids and
`fuel = nodes.length + 1` (as used by `findAllLoops`) is never exhausted. -/
def dfsFindLoops (nodes : List Node) : Nat → Node → String → DfsState → DfsState
  | 0, _, _, s => s
  | fuel+1, curr, startId, s =>
    let s2 := curr.outgoingEdges.foldl
      (dfsEdgeStep nodes startId (fun v t => dfsFindLoops nodes fuel v startId t))
      { s with visited := s.visited ++ [curr.id] }
    if curr.id = startId then s2
    else { s2 with visited := s2.visited.dropLast, stack := s2.stack.dropLast }

/-- `findAllLoops(nodes)` (sfg.js:719-740): one shared `visited`/`stack`/
`cycles` triple threaded through a DFS rooted at every node in turn. -/
def findAllLoops (nodes : List Node) : List (List Edge) :=
  (nodes.foldl (fun s node => dfsFindLoops nodes (nodes.length + 1) node node.id s)
    { visited := [], stack := [], cycles := [] }).cycles

/-- A recorded forward path: the JS code stores node objects, which may be
`undefined` (when the end id did not resolve), hence `Option Node`. -/
abbrev FPath := List (Option Node)

/-- `findForwardPaths(start, end, nodes, paths, currPath)` (sfg.js:859-888).
`start`/`endN` are the JS values flowing through the `start` parameter
(possibly `undefined`); `===` on node objects is modelled by structural
equality, faithful here because every node object in play is the first
`nodes.find` match for its id.  `none` as a result models the `TypeError`
thrown by evaluating `start.outgoingEdges` when `start` is `undefined`.
`fuel` bounds the recursion: each non-terminal call appends a node not yet on
`currPath`, so `fuel = nodes.length + 2` is never exhausted. -/
def findForwardPaths (nodes : List Node) :
    Nat → Option Node → Option Node → List FPath → FPath → Option (List FPath)
  | 0, _, _, paths, _ => some paths
  | fuel+1, start, endN, paths, currPath =>
    if start = endN then
      some (paths ++ [currPath ++ [start]])
    else if currPath.contains start then
      some paths
    else
      match start with
      | none => none
      | some st =>
        if st.outgoingEdges.length < 1 then
          some paths
        else
          st.outgoingEdges.foldlM (fun ps edge =>
            findForwardPaths nodes fuel (nodes.find? (fun x => x.id == edge.endNode))
              endN ps (currPath ++ [Option.some st])) paths

/-- `extractPathEdges(pathNodes)` (sfg.js:916-927): for each consecutive
pair, find the first outgoing edge of the earlier node whose destination is
the later node's id.  `none` models the `TypeError` of reading
`pn.outgoingEdges` on an `undefined` path entry, or of reading
`pathNodes[i+1].id` inside the `find` callback (which only runs when the
edge list is non-empty). -/
def extractPathEdges (pathNodes : FPath) : Option (List (Option Edge)) :=
  (pathNodes.zip pathNodes.tail).foldlM (fun acc pair =>
    match pair.1 with
    | none => none
    | some p =>
      if p.outgoingEdges.isEmpty then
        some (acc ++ [(none : Option Edge)])
      else
        match pair.2 with
        | none => none
        | some nx => some (acc ++ [p.outgoingEdges.find? (fun x => x.endNode == nx.id)])) []

/-- The body of the `paths.forEach` of `getForwardPathsLoopgains`
(sfg.js:896-906), one path at a time. -/
def gainStep (acc : List Expression) (p : FPath) : Option (List Expression) :=
  match extractPathEdges p with
  | none => none
  | some pe =>
    match calculateLoopGainOpt pe with
    | none => none
    | some g => some (acc ++ [g])

/-- `getForwardPathsLoopgains(paths)` (sfg.js:896-906). -/
def getForwardPathsLoopgains (paths : List FPath) : Option (List Expression) :=
  paths.foldlM gainStep []

/-- `subtractNodes(originalNodes, nodesToSubtract)` (sfg.js:937-962).
Every original node is deep-copied; then for each copy `n`:
`!nodesToSubtract.includes(n)` is always true, because `n` is a freshly
allocated copy and `Array.prototype.includes` compares objects by reference
(SameValueZero), so no copy is ever excluded by that test; a copy with an
empty edge list is dropped, and every other copy has, for each subtracted
node, the first outgoing edge pointing at that node's id spliced out.
Reading `nts.id` on an `undefined` entry of `nodesToSubtract` throws
(`none`). -/
def subtractNodes (originalNodes : List Node) (nodesToSubtract : FPath) :
    Option (List Node) :=
  (originalNodes.map Node.copy).foldlM (fun subgraph n =>
    if n.outgoingEdges.length > 0 then
      match nodesToSubtract.foldlM (fun (m : Node) nts? =>
          match nts? with
          | none => none
          | some nts =>
            match m.outgoingEdges.findIdx? (fun e => e.endNode == nts.id) with
            | some idx => some { m with outgoingEdges := m.outgoingEdges.eraseIdx idx }
            | none => some m) n with
      | none => none
      | some n2 => some (subgraph ++ [n2])
    else some subgraph) []

/-- Lexicographic comparison of character lists by code point, modelling the
default string comparator of JS `Array.prototype.sort` (which compares code
units; the two agree on the identifier strings at hand). -/
def lexLe : List Char → List Char → Bool
  | [], _ => true
  | _ :: _, [] => false
  | a :: as, b :: bs =>
    if a.toNat < b.toNat then true
    else if b.toNat < a.toNat then false
    else lexLe as bs

/-- The string order used to sort the deduplication keys. -/
def strLe (a b : String) : Bool := lexLe a.data b.data

/-- `strLe` as a decidable relation, for `List.insertionSort`. -/
def strLeRel (a b : String) : Prop := strLe a b = true

instance : DecidableRel strLeRel :=
  fun a b => inferInstanceAs (Decidable (strLe a b = true))

/-- The canonical deduplication key of `findNonTouching` (sfg.js:1045):
`concatLoops.map(e => e.id).sort().toString()` — the edge ids sorted and
joined with commas. -/
def canonKey (edges : List Edge) : String :=
  String.intercalate "," (List.insertionSort strLeRel (edges.map Edge.id))

/-- One iteration of the inner `innerIndex` loop of `findNonTouching`
(sfg.js:1040-1055): concatenate the candidate, skip it when its canonical key
was already counted, skip it when the loops touch (share an `endNode`), and
otherwise record both the combination and its key.  State is the pair of the
level's accumulated combinations and the global `existingGains` key list. -/
def ntScanStep (currLoop : List Edge) (st2 : List (List Edge) × List String)
    (remainingLoop : List Edge) : List (List Edge) × List String :=
  let concatLoops := remainingLoop ++ currLoop
  let key := canonKey concatLoops
  if st2.2.contains key then st2
  else
    if (remainingLoop.map Edge.endNode).any
        (fun node => (currLoop.map Edge.endNode).contains node) then st2
    else (st2.1 ++ [concatLoops], st2.2 ++ [key])

/-- The inner `innerIndex` loop of `findNonTouching` (sfg.js:1040-1055) for a
fixed `currLoop` from the previous level. -/
def ntScanLoop (allLoops : List (List Edge)) (currLoop : List Edge)
    (st : List (List Edge) × List String) : List (List Edge) × List String :=
  allLoops.foldl (ntScanStep currLoop) st

/-- One level (`i`) of `findNonTouching` (sfg.js:1035-1056): the `j` loop over
the previous level's combinations. -/
def ntLevel (allLoops prevSet : List (List Edge)) (existing : List String) :
    List (List Edge) × List String :=
  prevSet.foldl (fun st currLoop => ntScanLoop allLoops currLoop st) ([], existing)

/-- The `i` loop of `findNonTouching` (sfg.js:1030-1063): levels `i = 2, 3, …`
while `i ≤ numLoops`, stopping (and dropping the level) at the first empty
level.  `fuel = numLoops - 1` realises the `i ≤ numLoops` bound. -/
def ntIter (allLoops : List (List Edge)) :
    Nat → Nat → List (List Edge) → List String → List (Nat × List (List Edge))
  | 0, _, _, _ => []
  | fuel+1, i, prevSet, existing =>
    let lvl := ntLevel allLoops prevSet existing
    if lvl.1.isEmpty then []
    else (i, lvl.1) :: ntIter allLoops fuel (i+1) lvl.1 lvl.2

/-- `findNonTouching(allLoops)` (sfg.js:1019-1077).  The JS result is a `Map`
iterated in insertion order; it is modelled as the association list of its
entries in insertion order (key 1 is deleted before returning, so it never
appears). -/
def findNonTouching (allLoops : List (List Edge)) : List (Nat × List (List Edge)) :=
  ntIter allLoops (allLoops.length - 1) 2 allLoops []

/-- `calculateDenominator(allLoops, nonTouching)` (sfg.js:971-992): start from
`new Expression(0).add(1)`, subtract every individual loop gain, then for
every entry of the non-touching map (`forEach` passes the *key* as `index`)
add the level's summed gain when the key is even and subtract it when odd. -/
def calculateDenominator (allLoops : List (List Edge))
    (nonTouching : List (Nat × List (List Edge))) : Expression :=
  let denom := Expression.add (Expression.const 0) (Expression.const 1)
  let denom := allLoops.foldl (fun d loop => Expression.sub d (calculateLoopGain loop)) denom
  nonTouching.foldl (fun d kv =>
    let loopGain := kv.2.foldl (fun lg loop => Expression.add lg (calculateLoopGain loop))
      (Expression.const 0)
    if kv.1 % 2 == 0 then Expression.add d loopGain else Expression.sub d loopGain) denom

/-- The body of the `paths.forEach` of `calculateNumerator` (sfg.js:824-831)
that computes `delta_k` for one forward path. -/
def deltaStep (nodes : List Node) (acc : List Expression) (p : FPath) :
    Option (List Expression) :=
  match subtractNodes nodes p with
  | none => none
  | some subgraph =>
    some (acc ++ [calculateDenominator (findAllLoops subgraph)
      (findNonTouching (findAllLoops subgraph))])

/-- `calculateNumerator(start, end, nodes)` (sfg.js:809-846).  The outer
`Option` models an uncaught `TypeError` (the computation throws); the inner
`Option` models the explicit `return undefined` of the path/cofactor-count
sanity check. -/
def calculateNumerator (startId endId : String) (nodes : List Node) :
    Option (Option Expression) :=
  let start := nodes.find? (fun x => x.id == startId)
  let endN := nodes.find? (fun x => x.id == endId)
  match findForwardPaths nodes (nodes.length + 2) start endN [] [] with
  | none => none
  | some paths =>
    match getForwardPathsLoopgains paths with
    | none => none
    | some forwardLoopgains =>
      match paths.foldlM (deltaStep nodes) [] with
      | none => none
      | some delta_k =>
        if forwardLoopgains.length == delta_k.length then
          some (some ((forwardLoopgains.zip delta_k).foldl
            (fun numer pd => Expression.add numer (Expression.mul pd.1 pd.2))
            (Expression.const 0)))
        else
          some (none : Option Expression)

/-- `true` exactly when `calculateNumerator` took the `return undefined`
branch of its path/cofactor-count sanity check. -/
def isUndefinedReturn : Option (Option Expression) → Bool
  | some none => true
  | _ => false

/-- An edge of `nodes` whose destination id resolves to some node. -/
def resolvesIn (nodes : List Node) (e : Edge) : Prop :=
  ∃ n, n ∈ nodes ∧ n.id = e.endNode

/-- The number of node-id occurrences of `nodes` not yet marked in `visited`:
the termination measure of `dfsFindLoops` (each recursive call marks a fresh
node id, so this strictly decreases). -/
def unvisited (nodes : List Node) (visited : List String) : Nat :=
  (nodes.map Node.id).countP (fun i => !visited.contains i)

/-- The integer value of a loop gain: the product of the weights. -/
def loopGainValue (σ : String → Int) (loop : List Edge) : Int :=
  (loop.map (fun e => σ e.weight)).prod

/-!  A heap model for the object-mutation claims: JS objects live in a store
addressed by allocation order, and `Array.prototype.includes` on objects is
equality of addresses.  Only `subtractNodes` ever writes to or allocates node
objects, so the heap model is given for it alone; the other core operations
read the store but never update it. -/

/-- Phase 1 of `subtractNodes` (sfg.js:942-944) in the heap model: deep-copy
every graph node, allocating each copy at a fresh address. -/
def copyPhaseH (h : List Node) (graphAddrs : List Nat) : List Node × List Nat :=
  graphAddrs.foldl (fun acc a =>
    match acc.1.get? a with
    | some n => (acc.1 ++ [Node.copy n], acc.2 ++ [acc.1.length])
    | none => acc) (h, [])

/-- The inner `nodesToSubtract.forEach` of `subtractNodes` (sfg.js:949-956)
in the heap model: for each subtracted node, splice out the first edge of
`es` pointing at its id. -/
def pruneEdgesH (h : List Node) (subtractAddrs : List Nat) (es : List Edge) : List Edge :=
  subtractAddrs.foldl (fun es2 nta =>
    match h.get? nta with
    | none => es2
    | some nts =>
      match es2.findIdx? (fun e => e.endNode == nts.id) with
      | none => es2
      | some idx => es2.eraseIdx idx) es

/-- `subtractNodes(originalNodes, nodesToSubtract)` (sfg.js:937-962) in the
heap model: `graphAddrs`/`subtractAddrs` are the addresses of the original
nodes and of the path nodes; the `includes` test compares addresses, and the
splices are in-place updates of the freshly allocated copies.  Returns the
updated store and the addresses making up the returned subgraph. -/
def subtractNodesH (h : List Node) (graphAddrs subtractAddrs : List Nat) :
    List Node × List Nat :=
  let cp := copyPhaseH h graphAddrs
  cp.2.foldl (fun acc a =>
    match acc.1.get? a with
    | none => acc
    | some n =>
      if !(subtractAddrs.contains a) && decide (n.outgoingEdges.length > 0) then
        (acc.1.set a { n with outgoingEdges := pruneEdgesH acc.1 subtractAddrs n.outgoingEdges },
         acc.2 ++ [a])
      else acc) (cp.1, ([] : List Nat))

/-!  Concrete graphs used by the counterexample, failing-input and witness
theorems. -/

/-- Edge `1 → 2` with weight `a` of the canonical chain graph. -/
def eA : Edge := { weight := "a", startNode := "1", endNode := "2", id := "12" }

/-- Edge `2 → 3` with weight `b` of the canonical chain graph. -/
def eB : Edge := { weight := "b", startNode := "2", endNode := "3", id := "23" }

/-- The self-loop at node `2` with weight `f` of the canonical chain graph. -/
def eF : Edge := { weight := "f", startNode := "2", endNode := "2", id := "22" }

/-- Node `1` of the canonical chain graph. -/
def chainN1 : Node := { id := "1", value := none, outgoingEdges := [eA] }

/-- Node `2` of the canonical chain graph (self-loop `f`). -/
def chainN2 : Node := { id := "2", value := none, outgoingEdges := [eB, eF] }

/-- Node `3` of the canonical chain graph. -/
def chainN3 : Node := { id := "3", value := none, outgoingEdges := [] }

/-- The canonical 3-node chain `1 → 2 → 3` with a self-loop at node `2`. -/
def chainNodes : List Node := [chainN1, chainN2, chainN3]

/-- An edge whose destination id `X` resolves to no node of `dangNodes`. -/
def edX : Edge := { weight := "w", startNode := "1", endNode := "X", id := "1X" }

/-- Source node of the dangling edge. -/
def dangN1 : Node := { id := "1", value := none, outgoingEdges := [edX] }

/-- An ordinary edgeless node, the intended end node. -/
def dangN2 : Node := { id := "2", value := none, outgoingEdges := [] }

/-- A graph with a single edge whose destination id resolves to no node. -/
def dangNodes : List Node := [dangN1, dangN2]

/-- Edge `1 → 2` of the two-node cycle graph. -/
def cycE12 : Edge := { weight := "p", startNode := "1", endNode := "2", id := "12" }

/-- Edge `2 → 1` of the two-node cycle graph. -/
def cycE21 : Edge := { weight := "q", startNode := "2", endNode := "1", id := "21" }

/-- Node `1` of the two-node cycle graph. -/
def cycN1 : Node := { id := "1", value := none, outgoingEdges := [cycE12] }

/-- Node `2` of the two-node cycle graph. -/
def cycN2 : Node := { id := "2", value := none, outgoingEdges := [cycE21] }

/-- A graph whose only simple cycle is the two-node cycle `1 → 2 → 1`. -/
def cyc2Nodes : List Node := [cycN1, cycN2]

/-- A self-loop at node `x`, a one-edge cycle. -/
def selfLoopX : Edge := { weight := "g1", startNode := "x", endNode := "x", id := "xx" }

/-- A self-loop at node `y`, a one-edge cycle disjoint from `selfLoopX`. -/
def selfLoopY : Edge := { weight := "g2", startNode := "y", endNode := "y", id := "yy" }

/-- Two parallel edges between the same endpoints, disambiguated by a numeric
suffix on the second id, as built by the graph-builder. -/
def parE1 : Edge := { weight := "u", startNode := "A", endNode := "B", id := "AB" }

/-- The second parallel edge (suffixed id `AB2`). -/
def parE2 : Edge := { weight := "v", startNode := "A", endNode := "B", id := "AB2" }

/-- The restoration contract of one `dfsFindLoops` call at a given fuel:
a non-root call leaves `visited` exactly as it found it and pops the edge its
caller pushed; a root call leaves its own mark appended and the stack intact;
and the call only appends cycles, each made of resolvable edges whenever the
entry stack was. -/
def dfsSpecAt (nodes : List Node) (fuel : Nat) : Prop :=
  ∀ (curr : Node) (startId : String) (s : DfsState),
    curr ∈ nodes →
    unvisited nodes (s.visited ++ [curr.id]) < fuel →
    ((dfsFindLoops nodes fuel curr startId s).visited =
      if curr.id = startId then s.visited ++ [curr.id] else s.visited) ∧
    ((dfsFindLoops nodes fuel curr startId s).stack =
      if curr.id = startId then s.stack else s.stack.dropLast) ∧
    ∃ new, (dfsFindLoops nodes fuel curr startId s).cycles = s.cycles ++ new ∧
      ((∀ e ∈ s.stack, resolvesIn nodes e) → ∀ c ∈ new, ∀ e ∈ c, resolvesIn nodes e)

/-- **C1** (code-bug evidence).  The claim says the residual subgraph built by
`subtractNodes` contains none of the forward path's nodes.  Evaluating the
code at the canonical chain graph with its only forward path `1 → 2 → 3`
(whose node set is all three nodes): the returned residual still contains
the path nodes `1` and `2`.  `subtractNodes` never removes a node that had
outgoing edges — its `includes` membership test compares freshly allocated
copies against the original path objects by reference and is therefore
always false — and it prunes only the *first* outgoing edge pointing at each
subtracted node, contradicting its own documentation ("Returns A - B", "a
sub-graph of originalNodes after nodesToSubtract has been removed"). -/
theorem C1_residual_keeps_path_nodes :
    Option.map (fun l => l.map Node.id)
      (subtractNodes chainNodes [some chainN1, some chainN2, some chainN3]) =
    some ["1", "2"] := by decide

/-- **C3** (counterexample).  The claim says that in forward-path enumeration
an edge whose destination id does not resolve is skipped and no error is
surfaced.  In `dangNodes` the single edge `1 → X` has an unresolvable
destination, yet `findForwardPaths` (at the fuel `calculateNumerator` uses)
recurses on the unresolved (`undefined`) destination and throws a
`TypeError` — modelled by `none` — instead of skipping the edge. -/
theorem C3_forward_paths_error_on_dangling :
    findForwardPaths dangNodes 4 (some dangN1) (some dangN2) [] [] = none := by
  decide

/-- **C8** (counterexample).  The claim says a symbolic numerator is always
returned.  On `dangNodes` (one edge with an unresolvable destination)
`calculateNumerator` throws a `TypeError` during forward-path enumeration —
modelled by `none` — so no symbolic result is returned even though the
path/cofactor counts were never unequal. -/
theorem C8_numerator_throws_on_dangling :
    calculateNumerator "1" "2" dangNodes = none := by decide

/-- **C4** (counterexample).  The claim says that when the DFS rooted at a
node completes, every mark made during that search — including the root's
own mark — is gone.  On the two-node cycle graph, after the search rooted at
node `1` completes (fuel `cyc2Nodes.length + 1 = 3`, initial state empty),
the visited list is *not* empty: the root's own mark `"1"` is still there. -/
theorem C4_root_mark_persists :
    decide ((dfsFindLoops cyc2Nodes 3 cycN1 "1"
      { visited := [], stack := [], cycles := [] }).visited = ([] : List String))
      = false := by decide

/-- **C10**.  `Edge.prototype.copy` recomputes the id as the concatenation of
the source and destination ids regardless of the edge's actual id;
`Node.prototype.copy` (applied to every node by `subtractNodes`) copies each
outgoing edge that way; consequently the copies of two parallel edges
between the same endpoints carry an identical id. -/
theorem C10_copy_recomputes_id :
    (∀ e : Edge, (Edge.copy e).id = e.startNode ++ e.endNode) ∧
    (∀ n : Node, (Node.copy n).outgoingEdges = n.outgoingEdges.map Edge.copy) ∧
    (∀ e1 e2 : Edge, e1.startNode = e2.startNode → e1.endNode = e2.endNode →
      (Edge.copy e1).id = (Edge.copy e2).id) := by
  refine ⟨fun e => rfl, fun n => rfl, fun e1 e2 h1 h2 => ?_⟩
  simp [Edge.copy, Edge.make, h1, h2]

/-- **C10** witness: the parallel edges `parE1` (id `AB`) and `parE2`
(id `AB2`, with the disambiguating numeric suffix) both copy to id `AB`. -/
theorem C10_copy_recomputes_id_witness :
    (Edge.copy parE1).id = (Edge.copy parE2).id :=
  C10_copy_recomputes_id.2.2 parE1 parE2 rfl rfl

/-- If each successful step of an `Option`-valued fold appends exactly one
element to the accumulator, a successful fold over `l` grows it by
`l.length`. -/
theorem foldlM_option_length {α β : Type} (f : List β → α → Option (List β))
    (hf : ∀ acc p r, f acc p = some r → r.length = acc.length + 1) :
    ∀ (l : List α) (acc res : List β), List.foldlM f acc l = some res →
      res.length = acc.length + l.length := by
  intro l
  induction l with
  | nil =>
    intro acc res h
    simp only [List.foldlM] at h
    cases h
    simp
  | cons x t ih =>
    intro acc res h
    rw [List.foldlM_cons] at h
    cases hx : f acc x with
    | none => rw [hx] at h; simp at h
    | some acc1 =>
      rw [hx] at h
      simp only [Option.bind_eq_bind, Option.some_bind] at h
      have h2 := ih acc1 res h
      have h1 := hf acc x acc1 hx
      simp only [List.length_cons]
      omega

/-- A successful `gainStep` appends exactly one gain. -/
theorem gainStep_length : ∀ (acc : List Expression) (p : FPath) (r : List Expression),
    gainStep acc p = some r → r.length = acc.length + 1 := by
  intro acc p r h
  unfold gainStep at h
  cases hpe : extractPathEdges p with
  | none => simp only [hpe] at h; exact Option.noConfusion h
  | some pe =>
    simp only [hpe] at h
    cases hg : calculateLoopGainOpt pe with
    | none => simp only [hg] at h; exact Option.noConfusion h
    | some g =>
      simp only [hg, Option.some.injEq] at h
      cases h
      simp

/-- A successful `deltaStep` appends exactly one cofactor. -/
theorem deltaStep_length (nodes : List Node) :
    ∀ (acc : List Expression) (p : FPath) (r : List Expression),
    deltaStep nodes acc p = some r → r.length = acc.length + 1 := by
  intro acc p r h
  unfold deltaStep at h
  cases hs : subtractNodes nodes p with
  | none => simp only [hs] at h; exact Option.noConfusion h
  | some sg =>
    simp only [hs, Option.some.injEq] at h
    cases h
    simp

/-- **C8** (amended).  The path/cofactor-count sanity check of
`calculateNumerator` never fires: the gain list and the cofactor list are
each built by exactly one push per enumerated forward path, so their lengths
always agree and the `return undefined` mismatch branch is unreachable.  (A
symbolic numerator is nevertheless *not* always returned: enumeration can
throw on an unresolvable edge destination, as the counterexample theorem
shows — the call then produces no counts at all.) -/
theorem C8_mismatch_never_fires (startId endId : String) (nodes : List Node) :
    isUndefinedReturn (calculateNumerator startId endId nodes) = false := by
  simp only [calculateNumerator]
  split
  · rfl
  next paths hpaths =>
    split
    · rfl
    next gains hgains =>
      split
      · rfl
      next deltas hdeltas =>
        have hlg : gains.length = paths.length := by
          have h3 := foldlM_option_length gainStep gainStep_length paths [] gains hgains
          simpa using h3
        have hld : deltas.length = paths.length := by
          have h4 := foldlM_option_length (deltaStep nodes) (deltaStep_length nodes)
            paths [] deltas hdeltas
          simpa using h4
        have hb : (gains.length == deltas.length) = true := by
          simp [hlg, hld]
        rw [if_pos hb]
        rfl

/-- Evaluating the multiply-in fold of `calculateLoopGain`. -/
theorem eval_foldl_mul (σ : String → Int) :
    ∀ (es : List Edge) (init : Expression),
    (es.foldl (fun ex e => Expression.mul ex (Expression.var e.weight)) init).eval σ =
      init.eval σ * (es.map (fun e => σ e.weight)).prod := by
  intro es
  induction es with
  | nil => intro init; simp [Expression.eval]
  | cons e t ih =>
    intro init
    simp only [List.foldl_cons, List.map_cons, List.prod_cons]
    rw [ih]
    simp only [Expression.eval]
    ring

/-- A loop's gain evaluates to the product of its edge weights. -/
theorem calculateLoopGain_eval (σ : String → Int) (loop : List Edge) :
    (calculateLoopGain loop).eval σ = loopGainValue σ loop := by
  unfold calculateLoopGain loopGainValue
  rw [eval_foldl_mul]
  simp [Expression.eval]

/-- Evaluating the subtract-each-gain fold of `calculateDenominator`. -/
theorem eval_foldl_sub (σ : String → Int) :
    ∀ (L : List (List Edge)) (init : Expression),
    (L.foldl (fun d loop => Expression.sub d (calculateLoopGain loop)) init).eval σ =
      init.eval σ - (L.map (loopGainValue σ)).sum := by
  intro L
  induction L with
  | nil => intro init; simp
  | cons l t ih =>
    intro init
    simp only [List.foldl_cons, List.map_cons, List.sum_cons]
    rw [ih]
    simp only [Expression.eval, calculateLoopGain_eval]
    ring

/-- Evaluating the add-each-gain fold over one non-touching level. -/
theorem eval_foldl_add (σ : String → Int) :
    ∀ (L : List (List Edge)) (init : Expression),
    (L.foldl (fun lg loop => Expression.add lg (calculateLoopGain loop)) init).eval σ =
      init.eval σ + (L.map (loopGainValue σ)).sum := by
  intro L
  induction L with
  | nil => intro init; simp
  | cons l t ih =>
    intro init
    simp only [List.foldl_cons, List.map_cons, List.sum_cons]
    rw [ih]
    simp only [Expression.eval, calculateLoopGain_eval]
    ring

/-- Evaluating the signed fold over the non-touching map: each level `k`
contributes its summed gain with sign `+` when `k` is even and `-` when
odd. -/
theorem eval_foldl_nt (σ : String → Int) :
    ∀ (nt : List (Nat × List (List Edge))) (init : Expression),
    (nt.foldl (fun d kv =>
      let loopGain := kv.2.foldl (fun lg loop => Expression.add lg (calculateLoopGain loop))
        (Expression.const 0)
      if kv.1 % 2 == 0 then Expression.add d loopGain else Expression.sub d loopGain)
        init).eval σ =
      init.eval σ + (nt.map (fun kv =>
        (if kv.1 % 2 = 0 then (1 : Int) else -1) *
          ((kv.2.map (loopGainValue σ)).sum))).sum := by
  intro nt
  induction nt with
  | nil => intro init; simp
  | cons kv t ih =>
    intro init
    simp only [List.foldl_cons, List.map_cons, List.sum_cons]
    rw [ih]
    by_cases hk : kv.1 % 2 = 0
    · have hb : (kv.1 % 2 == 0) = true := by
        simp [hk]
      simp only [hb, if_true, if_pos hk]
      simp only [Expression.eval, eval_foldl_add]
      simp [Expression.eval]
      ring
    · have hb : (kv.1 % 2 == 0) = false := by
        simp [hk]
      simp only [hb, Bool.false_eq_true, if_false, if_neg hk]
      simp only [Expression.eval, eval_foldl_add]
      simp [Expression.eval]
      ring

/-- **C2**.  `calculateDenominator(allLoops, nonTouchingMap)` returns
`1 − Σ(individual loop gains) + Σ(even-level gains) − Σ(odd-level gains)`:
under every weight assignment it evaluates to 1 minus the sum of every
individual loop's gain (the product of its edge weights), plus, for every
level `k` of the non-touching map, the level's summed gain with positive
sign when `k` is even and negative sign when `k` is odd. -/
theorem C2_denominator_alternating_sum (σ : String → Int)
    (allLoops : List (List Edge)) (nonTouching : List (Nat × List (List Edge))) :
    (calculateDenominator allLoops nonTouching).eval σ =
      1 - (allLoops.map (loopGainValue σ)).sum
        + (nonTouching.map (fun kv =>
            (if kv.1 % 2 = 0 then (1 : Int) else -1) *
              ((kv.2.map (loopGainValue σ)).sum))).sum := by
  simp only [calculateDenominator]
  rw [eval_foldl_nt, eval_foldl_sub]
  simp [Expression.eval]

/-- **C7**.  For the canonical 3-node chain (nodes 1, 2, 3; edge `1→2` of
weight `a`, edge `2→3` of weight `b`, self-loop of weight `f` at node 2):
the denominator assembled from `findAllLoops`/`findNonTouching`/
`calculateDenominator` evaluates to `1 - f` under every weight assignment,
and `calculateNumerator(1, 3, graph)` returns a symbolic expression that
evaluates to `a*b` — the single forward path `1→2→3` leaves a residual with
no cycles, so its cofactor is the empty alternating sum, `1`. -/
theorem C7_chain_transfer :
    (∀ σ : String → Int,
      (calculateDenominator (findAllLoops chainNodes)
        (findNonTouching (findAllLoops chainNodes))).eval σ = 1 - σ "f") ∧
    ∃ E, calculateNumerator "1" "3" chainNodes = some (some E) ∧
      ∀ σ : String → Int, E.eval σ = σ "a" * σ "b" := by
  constructor
  · intro σ
    have h : calculateDenominator (findAllLoops chainNodes)
        (findNonTouching (findAllLoops chainNodes)) =
        Expression.sub (Expression.add (Expression.const 0) (Expression.const 1))
          (Expression.mul (Expression.const 1) (Expression.var "f")) := by decide
    rw [h]
    simp [Expression.eval]
  · refine ⟨Expression.add (Expression.const 0)
      (Expression.mul (Expression.mul (Expression.mul (Expression.const 1)
        (Expression.var "a")) (Expression.var "b"))
        (Expression.add (Expression.const 0) (Expression.const 1))),
      by decide, fun σ => by simp [Expression.eval]⟩

/-- Structure of the level iteration of `findNonTouching`: the keys produced
from level `i` on are consecutive (`i, i+1, …`) and every kept level is
non-empty (the first empty level stops the iteration and is dropped). -/
theorem ntIter_levels (allLoops : List (List Edge)) :
    ∀ (fuel i : Nat) (prevSet : List (List Edge)) (existing : List String),
    ((ntIter allLoops fuel i prevSet existing).map Prod.fst =
      List.range' i (ntIter allLoops fuel i prevSet existing).length) ∧
    ∀ p ∈ ntIter allLoops fuel i prevSet existing, p.2 ≠ [] := by
  intro fuel
  induction fuel with
  | zero => intro i prev ex; simp [ntIter]
  | succ fuel ih =>
    intro i prev ex
    simp only [ntIter]
    by_cases he : (ntLevel allLoops prev ex).1.isEmpty
    · simp [he]
    · rw [Bool.not_eq_true] at he
      simp only [he, Bool.false_eq_true, if_false]
      obtain ⟨h1, h2⟩ := ih (i+1) (ntLevel allLoops prev ex).1 (ntLevel allLoops prev ex).2
      constructor
      · simp only [List.map_cons, List.length_cons, h1]
        rfl
      · intro p hp
        rcases List.mem_cons.mp hp with hp | hp
        · subst hp
          exact List.isEmpty_eq_false.mp he
        · exact h2 p hp

/-- **C6**.  Every entry of the map returned by `findNonTouching` has key
`k ≥ 2` and a non-empty combination list, and the keys are exactly the
consecutive range starting at 2 — so once some level yields no combination,
no higher level appears in the result. -/
theorem C6_levels (allLoops : List (List Edge)) (p : Nat × List (List Edge))
    (hp : p ∈ findNonTouching allLoops) :
    2 ≤ p.1 ∧ p.2 ≠ [] ∧
    (findNonTouching allLoops).map Prod.fst =
      List.range' 2 (findNonTouching allLoops).length := by
  obtain ⟨h1, h2⟩ := ntIter_levels allLoops (allLoops.length - 1) 2 allLoops []
  have hp' : p ∈ ntIter allLoops (allLoops.length - 1) 2 allLoops [] := hp
  refine ⟨?_, h2 p hp', h1⟩
  have hm : p.1 ∈ (ntIter allLoops (allLoops.length - 1) 2 allLoops []).map Prod.fst :=
    List.mem_map_of_mem Prod.fst hp'
  rw [h1] at hm
  rcases List.mem_range'.mp hm with ⟨j, hj, hjeq⟩
  omega

/-- **C6** witness: for the two disjoint self-loops, the single level of the
returned map satisfies the level invariants. -/
theorem C6_levels_witness :
    2 ≤ (2, [[selfLoopY, selfLoopX]]).1 ∧ (2, [[selfLoopY, selfLoopX]]).2 ≠ [] ∧
    (findNonTouching [[selfLoopX], [selfLoopY]]).map Prod.fst =
      List.range' 2 (findNonTouching [[selfLoopX], [selfLoopY]]).length :=
  C6_levels [[selfLoopX], [selfLoopY]] (2, [[selfLoopY, selfLoopX]]) (by decide)

/-- The lexicographic character order is total. -/
theorem lexLe_total : ∀ (as bs : List Char), lexLe as bs = true ∨ lexLe bs as = true := by
  intro as
  induction as with
  | nil => intro bs; left; rfl
  | cons a as ih =>
    intro bs
    cases bs with
    | nil => right; rfl
    | cons b bs =>
      by_cases hab : a.toNat < b.toNat
      · left; simp [lexLe, hab]
      · by_cases hba : b.toNat < a.toNat
        · right; simp [lexLe, hba]
        · rcases ih bs with h | h
          · left; simp [lexLe, hab, hba, h]
          · right; simp [lexLe, hab, hba, h]

/-- The lexicographic character order is transitive. -/
theorem lexLe_trans : ∀ (as bs cs : List Char),
    lexLe as bs = true → lexLe bs cs = true → lexLe as cs = true := by
  intro as
  induction as with
  | nil => intro bs cs h1 h2; rfl
  | cons a as ih =>
    intro bs cs h1 h2
    cases bs with
    | nil => simp [lexLe] at h1
    | cons b bs =>
      cases cs with
      | nil => simp [lexLe] at h2
      | cons c cs =>
        simp only [lexLe] at h1 h2 ⊢
        by_cases hab : a.toNat < b.toNat
        · by_cases hbc : b.toNat < c.toNat
          · have hac : a.toNat < c.toNat := by omega
            simp [hac]
          · by_cases hcb : c.toNat < b.toNat
            · simp [hbc, hcb] at h2
            · have hac : a.toNat < c.toNat := by omega
              simp [hac]
        · by_cases hba : b.toNat < a.toNat
          · simp [hab, hba] at h1
          · by_cases hbc : b.toNat < c.toNat
            · have hac : a.toNat < c.toNat := by omega
              simp [hac]
            · by_cases hcb : c.toNat < b.toNat
              · simp [hbc, hcb] at h2
              · have hac : ¬ a.toNat < c.toNat := by omega
                have hca : ¬ c.toNat < a.toNat := by omega
                simp only [hab, hba, if_false] at h1
                simp only [hbc, hcb, if_false] at h2
                simp only [hac, hca, if_false]
                exact ih bs cs h1 h2

/-- The lexicographic character order is antisymmetric. -/
theorem lexLe_antisymm : ∀ (as bs : List Char),
    lexLe as bs = true → lexLe bs as = true → as = bs := by
  intro as
  induction as with
  | nil =>
    intro bs h1 h2
    cases bs with
    | nil => rfl
    | cons b bs => simp [lexLe] at h2
  | cons a as ih =>
    intro bs h1 h2
    cases bs with
    | nil => simp [lexLe] at h1
    | cons b bs =>
      by_cases hab : a.toNat < b.toNat
      · have hba : ¬ b.toNat < a.toNat := by omega
        simp [lexLe, hba, hab] at h2
      · by_cases hba : b.toNat < a.toNat
        · simp [lexLe, hab, hba] at h1
        · simp only [lexLe, hab, hba, if_false] at h1 h2
          have hn : a.toNat = b.toNat := by omega
          have hc : a = b := Char.ext (UInt32.toNat.inj hn)
          rw [hc, ih bs h1 h2]

/-- Totality of the string sort order. -/
theorem strLeRel_total : ∀ a b : String, strLeRel a b ∨ strLeRel b a :=
  fun a b => lexLe_total a.data b.data

/-- Transitivity of the string sort order. -/
theorem strLeRel_trans : ∀ a b c : String, strLeRel a b → strLeRel b c → strLeRel a c :=
  fun a b c => lexLe_trans a.data b.data c.data

/-- Antisymmetry of the string sort order. -/
theorem strLeRel_antisymm : ∀ a b : String, strLeRel a b → strLeRel b a → a = b :=
  fun a b h1 h2 => String.ext (lexLe_antisymm a.data b.data h1 h2)

/-- The canonical deduplication key is invariant under swapping the two
concatenated loops: both orders sort to the same id list. -/
theorem canonKey_comm (L1 L2 : List Edge) : canonKey (L1 ++ L2) = canonKey (L2 ++ L1) := by
  unfold canonKey
  congr 1
  have p1 := List.perm_insertionSort strLeRel ((L1 ++ L2).map Edge.id)
  have p2 := List.perm_insertionSort strLeRel ((L2 ++ L1).map Edge.id)
  have p3 : List.Perm ((L1 ++ L2).map Edge.id) ((L2 ++ L1).map Edge.id) := by
    rw [List.map_append, List.map_append]
    exact List.perm_append_comm
  have hperm := (p1.trans p3).trans p2.symm
  have hs1 := @List.sorted_insertionSort String strLeRel _ ⟨strLeRel_total⟩
    ⟨strLeRel_trans⟩ ((L1 ++ L2).map Edge.id)
  have hs2 := @List.sorted_insertionSort String strLeRel _ ⟨strLeRel_total⟩
    ⟨strLeRel_trans⟩ ((L2 ++ L1).map Edge.id)
  exact @List.eq_of_perm_of_sorted String strLeRel ⟨strLeRel_antisymm⟩ _ _ hperm hs1 hs2

/-- A candidate whose key was already counted is skipped. -/
theorem ntScanStep_dup (currLoop remainingLoop : List Edge)
    (st : List (List Edge) × List String)
    (h : st.2.contains (canonKey (remainingLoop ++ currLoop)) = true) :
    ntScanStep currLoop st remainingLoop = st := by
  simp only [ntScanStep]
  rw [if_pos h]

/-- A candidate whose loops touch is skipped (and its key not counted). -/
theorem ntScanStep_touch (currLoop remainingLoop : List Edge)
    (st : List (List Edge) × List String)
    (h : ((remainingLoop.map Edge.endNode).any
      (fun node => (currLoop.map Edge.endNode).contains node)) = true) :
    ntScanStep currLoop st remainingLoop = st := by
  simp only [ntScanStep]
  by_cases hc : st.2.contains (canonKey (remainingLoop ++ currLoop)) = true
  · rw [if_pos hc]
  · rw [if_neg hc, if_pos h]

/-- A fresh, non-touching candidate is recorded together with its key. -/
theorem ntScanStep_push (currLoop remainingLoop : List Edge)
    (st : List (List Edge) × List String)
    (hc : st.2.contains (canonKey (remainingLoop ++ currLoop)) = false)
    (ht : ((remainingLoop.map Edge.endNode).any
      (fun node => (currLoop.map Edge.endNode).contains node)) = false) :
    ntScanStep currLoop st remainingLoop =
      (st.1 ++ [remainingLoop ++ currLoop], st.2 ++ [canonKey (remainingLoop ++ currLoop)]) := by
  simp only [ntScanStep]
  rw [if_neg (by simpa using hc), if_neg (by simpa using ht)]

/-- A non-empty list always shares a member with itself. -/
theorem any_contains_self (l : List String) (h : l ≠ []) :
    (l.any fun x => l.contains x) = true := by
  cases l with
  | nil => exact absurd rfl h
  | cons a t => simp

/-- Disjoint node lists fail the touching test. -/
theorem any_contains_of_disj {A B : List String} (h : ∀ x ∈ A, x ∉ B) :
    (A.any fun x => B.contains x) = false := by
  simp only [List.any_eq_false]
  intro x hx
  simpa using h x hx

/-- **C5**.  When the cycle list is exactly two node-disjoint non-empty loops
`L1` and `L2`, `findNonTouching` returns exactly one 2-wise combination —
the concatenated edge list of the two loops — and never a duplicate of it,
whatever the discovery order (the statement is symmetric in `L1`/`L2`): the
duplicate candidate produced from the second loop is recognised because its
edge ids sort to the same canonical key. -/
theorem C5_two_disjoint_loops (L1 L2 : List Edge) (h1 : L1 ≠ []) (h2 : L2 ≠ [])
    (hdisj : ∀ x ∈ L2.map Edge.endNode, x ∉ L1.map Edge.endNode) :
    findNonTouching [L1, L2] = [(2, [L2 ++ L1])] := by
  have hm1 : (L1.map Edge.endNode) ≠ [] := by simpa using h1
  have hm2 : (L2.map Edge.endNode) ≠ [] := by simpa using h2
  have hs1 : ntScanLoop [L1, L2] L1 ([], []) = ([L2 ++ L1], [canonKey (L2 ++ L1)]) := by
    unfold ntScanLoop
    simp only [List.foldl_cons, List.foldl_nil]
    rw [ntScanStep_touch L1 L1 ([], []) (any_contains_self _ hm1)]
    rw [ntScanStep_push L1 L2 ([], []) rfl (any_contains_of_disj hdisj)]
    simp
  have hk : ([canonKey (L2 ++ L1)]).contains (canonKey (L1 ++ L2)) = true := by
    rw [canonKey_comm]
    simp
  have hs2 : ntScanLoop [L1, L2] L2 ([L2 ++ L1], [canonKey (L2 ++ L1)]) =
      ([L2 ++ L1], [canonKey (L2 ++ L1)]) := by
    unfold ntScanLoop
    simp only [List.foldl_cons, List.foldl_nil]
    rw [ntScanStep_dup L2 L1 _ hk]
    by_cases hc : ([canonKey (L2 ++ L1)]).contains (canonKey (L2 ++ L2)) = true
    · rw [ntScanStep_dup L2 L2 _ hc]
    · rw [ntScanStep_touch L2 L2 _ (any_contains_self _ hm2)]
  have hlevel : ntLevel [L1, L2] [L1, L2] [] = ([L2 ++ L1], [canonKey (L2 ++ L1)]) := by
    unfold ntLevel
    simp only [List.foldl_cons, List.foldl_nil]
    rw [hs1, hs2]
  show ntIter [L1, L2] ([L1, L2].length - 1) 2 [L1, L2] [] = [(2, [L2 ++ L1])]
  have hlen : ([L1, L2] : List (List Edge)).length - 1 = 1 := rfl
  rw [hlen]
  simp only [ntIter, hlevel]
  simp

/-- **C5** witness: the two disjoint self-loops at `x` and `y` give exactly
the one combined 2-wise set. -/
theorem C5_two_disjoint_loops_witness :
    findNonTouching [[selfLoopX], [selfLoopY]] = [(2, [[selfLoopY] ++ [selfLoopX]])] :=
  C5_two_disjoint_loops [selfLoopX] [selfLoopY] (by decide) (by decide) (by decide)

/-- `countP` is monotone in the predicate. -/
theorem countP_le_of_imp (p q : String → Bool) :
    ∀ (l : List String), (∀ a, p a = true → q a = true) → l.countP p ≤ l.countP q := by
  intro l h
  induction l with
  | nil => simp [List.countP_nil]
  | cons a t ih =>
    rw [List.countP_cons, List.countP_cons]
    by_cases hp : p a = true
    · rw [if_pos hp, if_pos (h a hp)]; omega
    · rw [if_neg hp]
      by_cases hq : q a = true
      · rw [if_pos hq]; omega
      · rw [if_neg hq]; omega

/-- Growing the visited list only shrinks the unvisited predicate. -/
theorem notctn_append_imp (V : List String) (x : String) :
    ∀ b, (!(V ++ [x]).contains b) = true → (!V.contains b) = true := by
  intro b hb
  simp at hb ⊢
  tauto

/-- Marking a fresh id that occurs in the id list strictly decreases the
count of unmarked occurrences. -/
theorem countP_notctn_append_lt (V : List String) (x : String) (hnv : x ∉ V) :
    ∀ (A : List String), x ∈ A →
    A.countP (fun i => !(V ++ [x]).contains i) < A.countP (fun i => !V.contains i) := by
  intro A hx
  induction hx with
  | head t =>
    rw [List.countP_cons, List.countP_cons]
    have hA : (!(V ++ [x]).contains x) = false := by simp
    have hB : (!V.contains x) = true := by simpa using hnv
    rw [hA, hB]
    have h3 := countP_le_of_imp _ _ t (notctn_append_imp V x)
    simp only [Bool.false_eq_true, if_false, if_pos]
    omega
  | tail a hmem ih =>
    rw [List.countP_cons, List.countP_cons]
    have hif : (if (!(List.contains (V ++ [x]) a)) = true then 1 else 0)
        ≤ (if (!(List.contains V a)) = true then 1 else 0) := by
      by_cases hc : (!(V ++ [x]).contains a) = true
      · rw [if_pos hc, if_pos (notctn_append_imp V x a hc)]
      · rw [if_neg hc]
        by_cases hq : (!V.contains a) = true
        · rw [if_pos hq]; omega
        · rw [if_neg hq]
    omega

/-- The DFS termination measure strictly decreases when a node of the graph
is newly marked. -/
theorem unvisited_append_lt (nodes : List Node) (V : List String) (x : String)
    (hx : x ∈ nodes.map Node.id) (hnv : x ∉ V) :
    unvisited nodes (V ++ [x]) < unvisited nodes V :=
  countP_notctn_append_lt V x hnv (nodes.map Node.id) hx

/-- The DFS termination measure is bounded by the node count. -/
theorem unvisited_le (nodes : List Node) (V : List String) :
    unvisited nodes V ≤ nodes.length := by
  unfold unvisited
  have h1 : (nodes.map Node.id).countP (fun i => !V.contains i)
      ≤ (nodes.map Node.id).length := List.countP_le_length (fun i => !V.contains i)
  simpa using h1

/-- Invariant of the edge loop of `dfsFindLoops`: assuming the restoration
contract at fuel `fuel` for the recursive calls, the whole fold leaves
`visited` and `stack` exactly as it found them and only appends cycles, each
consisting of resolvable edges whenever the entry stack did. -/
theorem dfs_loop (nodes : List Node) (startId : String) (fuel : Nat)
    (ih : dfsSpecAt nodes fuel) :
    ∀ (edges : List Edge) (st : DfsState),
    unvisited nodes st.visited ≤ fuel →
    ((edges.foldl (dfsEdgeStep nodes startId
        (fun v t => dfsFindLoops nodes fuel v startId t)) st).visited = st.visited ∧
     (edges.foldl (dfsEdgeStep nodes startId
        (fun v t => dfsFindLoops nodes fuel v startId t)) st).stack = st.stack ∧
     ∃ new, (edges.foldl (dfsEdgeStep nodes startId
        (fun v t => dfsFindLoops nodes fuel v startId t)) st).cycles = st.cycles ++ new ∧
       ((∀ e2 ∈ st.stack, resolvesIn nodes e2) →
        ∀ c ∈ new, ∀ e2 ∈ c, resolvesIn nodes e2)) := by
  intro edges
  induction edges with
  | nil =>
    intro st hst
    refine ⟨rfl, rfl, [], by simp, fun _ c hc => absurd hc (List.not_mem_nil c)⟩
  | cons e rest ihr =>
    intro st hst
    rw [List.foldl_cons]
    have hstep : (dfsEdgeStep nodes startId
          (fun v t => dfsFindLoops nodes fuel v startId t) st e).visited = st.visited ∧
        (dfsEdgeStep nodes startId
          (fun v t => dfsFindLoops nodes fuel v startId t) st e).stack = st.stack ∧
        ∃ new1, (dfsEdgeStep nodes startId
          (fun v t => dfsFindLoops nodes fuel v startId t) st e).cycles = st.cycles ++ new1 ∧
        ((∀ e2 ∈ st.stack, resolvesIn nodes e2) →
         ∀ c ∈ new1, ∀ e2 ∈ c, resolvesIn nodes e2) := by
      unfold dfsEdgeStep
      cases hfind : nodes.find? (fun x => x.id == e.endNode) with
      | none =>
        refine ⟨rfl, rfl, [], by simp, fun _ c hc => absurd hc (List.not_mem_nil c)⟩
      | some v =>
        dsimp only
        have hedge : resolvesIn nodes e := by
          refine ⟨v, List.mem_of_find?_eq_some hfind, ?_⟩
          have hpred := List.find?_some hfind
          simpa using hpred
        by_cases hv : v.id = startId
        · rw [if_pos hv]
          refine ⟨rfl, rfl, [st.stack ++ [e]], rfl, ?_⟩
          intro hres c hc e2 he2
          rw [List.mem_singleton] at hc
          subst hc
          rcases List.mem_append.mp he2 with h | h
          · exact hres e2 h
          · rw [List.mem_singleton] at h
            subst h
            exact hedge
        · rw [if_neg hv]
          by_cases hvis : st.visited.contains v.id = true
          · rw [if_pos hvis]
            refine ⟨rfl, rfl, [], by simp, fun _ c hc => absurd hc (List.not_mem_nil c)⟩
          · rw [if_neg hvis]
            have hmem : v ∈ nodes := List.mem_of_find?_eq_some hfind
            have hnv : v.id ∉ st.visited := by simpa using hvis
            have hlt : unvisited nodes (st.visited ++ [v.id]) < fuel :=
              lt_of_lt_of_le (unvisited_append_lt nodes st.visited v.id
                (List.mem_map_of_mem Node.id hmem) hnv) hst
            obtain ⟨hv1, hv2, new1, hc1, hres1⟩ := ih v startId
              { st with stack := st.stack ++ [e] } hmem hlt
            rw [if_neg hv] at hv1 hv2
            refine ⟨hv1, ?_, new1, hc1, ?_⟩
            · rw [hv2]
              exact List.dropLast_concat
            · intro hres c hc e2 he2
              apply hres1 ?_ c hc e2 he2
              intro e3 he3
              rcases List.mem_append.mp he3 with h | h
              · exact hres e3 h
              · rw [List.mem_singleton] at h
                subst h
                exact hedge
    obtain ⟨h1, h2, new1, h3, hres1⟩ := hstep
    obtain ⟨g1, g2, new2, g3, gres⟩ := ihr
      (dfsEdgeStep nodes startId (fun v t => dfsFindLoops nodes fuel v startId t) st e)
      (by rw [h1]; exact hst)
    refine ⟨by rw [g1, h1], by rw [g2, h2], new1 ++ new2,
      by rw [g3, h3, List.append_assoc], ?_⟩
    intro hres c hc
    rcases List.mem_append.mp hc with h | h
    · exact hres1 hres c h
    · apply gres ?_ c h
      rw [h2]
      exact hres

/-- The restoration contract holds at every fuel: by induction, using
`dfs_loop` for the edge loop and the strict measure decrease for the
recursive calls. -/
theorem dfs_spec (nodes : List Node) : ∀ fuel, dfsSpecAt nodes fuel := by
  intro fuel
  induction fuel with
  | zero =>
    intro curr startId s hmem hlt
    exact absurd hlt (Nat.not_lt_zero _)
  | succ fuel ih =>
    intro curr startId s hmem hlt
    simp only [dfsFindLoops]
    obtain ⟨h1, h2, new, h3, hres⟩ := dfs_loop nodes startId fuel ih curr.outgoingEdges
      { s with visited := s.visited ++ [curr.id] } (Nat.lt_succ_iff.mp hlt)
    by_cases hroot : curr.id = startId
    · rw [if_pos hroot]
      refine ⟨by rw [h1, if_pos hroot], by rw [h2, if_pos hroot], new, by rw [h3], hres⟩
    · rw [if_neg hroot]
      refine ⟨?_, ?_, new, by rw [h3], hres⟩
      · rw [if_neg hroot]
        show (List.foldl (dfsEdgeStep nodes startId fun v t => dfsFindLoops nodes fuel v startId t)
          { visited := s.visited ++ [curr.id], stack := s.stack, cycles := s.cycles }
          curr.outgoingEdges).visited.dropLast = s.visited
        rw [h1]
        exact List.dropLast_concat
      · rw [if_neg hroot]
        show (List.foldl (dfsEdgeStep nodes startId fun v t => dfsFindLoops nodes fuel v startId t)
          { visited := s.visited ++ [curr.id], stack := s.stack, cycles := s.cycles }
          curr.outgoingEdges).stack.dropLast = s.stack.dropLast
        rw [h2]

/-- Folding the per-root DFS over any list of roots keeps the shared stack
empty and only appends cycles made of resolvable edges. -/
theorem findAllLoops_roots (nodes : List Node) :
    ∀ (roots : List Node) (s : DfsState),
    (∀ r ∈ roots, r ∈ nodes) → s.stack = [] →
    ((roots.foldl (fun t node => dfsFindLoops nodes (nodes.length + 1) node node.id t)
        s).stack = [] ∧
     ∃ new, (roots.foldl (fun t node => dfsFindLoops nodes (nodes.length + 1) node node.id t)
        s).cycles = s.cycles ++ new ∧ ∀ c ∈ new, ∀ e ∈ c, resolvesIn nodes e) := by
  intro roots
  induction roots with
  | nil =>
    intro s hr hs
    exact ⟨hs, [], by simp, fun c hc => absurd hc (List.not_mem_nil c)⟩
  | cons r rest ih =>
    intro s hr hs
    rw [List.foldl_cons]
    have hmem : r ∈ nodes := hr r (List.mem_cons_self r rest)
    have hlt : unvisited nodes (s.visited ++ [r.id]) < nodes.length + 1 :=
      Nat.lt_succ_of_le (unvisited_le nodes (s.visited ++ [r.id]))
    obtain ⟨hv, hstk, new1, hcyc, hres⟩ :=
      dfs_spec nodes (nodes.length + 1) r r.id s hmem hlt
    rw [if_pos rfl] at hstk
    have hres1 : ∀ c ∈ new1, ∀ e ∈ c, resolvesIn nodes e := by
      apply hres
      rw [hs]
      intro e he
      exact absurd he (List.not_mem_nil e)
    obtain ⟨h2stk, new2, h2cyc, h2res⟩ := ih
      (dfsFindLoops nodes (nodes.length + 1) r r.id s)
      (fun x hx => hr x (List.mem_cons_of_mem r hx)) (by rw [hstk, hs])
    refine ⟨h2stk, new1 ++ new2, by rw [h2cyc, hcyc, List.append_assoc], ?_⟩
    intro c hc
    rcases List.mem_append.mp hc with h | h
    · exact hres1 c h
    · exact h2res c h

/-- **C3** (amended).  In cycle enumeration an edge whose destination id does
not resolve is skipped — the traversal continues and the edge contributes to
no cycle: every edge of every cycle returned by `findAllLoops` has a
destination id that resolves to a node of the graph.  (Forward-path
enumeration does *not* share this behaviour; see the counterexample.) -/
theorem C3_loops_skip_dangling (nodes : List Node) (c : List Edge) (e : Edge)
    (hc : c ∈ findAllLoops nodes) (he : e ∈ c) :
    ∃ n, n ∈ nodes ∧ n.id = e.endNode := by
  obtain ⟨hstk, new, hcyc, hres⟩ := findAllLoops_roots nodes nodes
    { visited := [], stack := [], cycles := [] } (fun r hr => hr) rfl
  unfold findAllLoops at hc
  rw [hcyc] at hc
  simp only [List.nil_append] at hc
  exact hres c hc e he

/-- **C3** witness: the self-loop cycle found in the chain graph consists of
resolvable edges. -/
theorem C3_loops_skip_dangling_witness : ∃ n, n ∈ chainNodes ∧ n.id = eF.endNode :=
  C3_loops_skip_dangling chainNodes [eF] eF (by decide) (by decide)

/-- **C4** (amended).  Within a search, each non-root `dfsFindLoops` call
restores `visited` exactly and pops its entering edge from the stack; a root
call returns with its own mark appended and the stack intact — the root's
mark is *not* removed when its search completes, so it persists into every
subsequent root's search (only non-root marks are scoped to the search). -/
theorem C4_dfs_visited_scope (nodes : List Node) (curr : Node) (startId : String)
    (s : DfsState) (hmem : curr ∈ nodes) :
    ((dfsFindLoops nodes (nodes.length + 1) curr startId s).visited =
      if curr.id = startId then s.visited ++ [curr.id] else s.visited) ∧
    ((dfsFindLoops nodes (nodes.length + 1) curr startId s).stack =
      if curr.id = startId then s.stack else s.stack.dropLast) := by
  obtain ⟨h1, h2, _⟩ := dfs_spec nodes (nodes.length + 1) curr startId s hmem
    (Nat.lt_succ_of_le (unvisited_le nodes (s.visited ++ [curr.id])))
  exact ⟨h1, h2⟩

/-- **C4** witness: on the two-node cycle graph, the search rooted at node
`1` returns with exactly the root's own mark appended. -/
theorem C4_dfs_visited_scope_witness :
    (dfsFindLoops cyc2Nodes 3 cycN1 "1"
      { visited := [], stack := [], cycles := [] }).visited = ["1"] := by
  have h := (C4_dfs_visited_scope cyc2Nodes cycN1 "1"
    { visited := [], stack := [], cycles := [] } (by decide)).1
  have e1 : cyc2Nodes.length + 1 = 3 := rfl
  rw [e1] at h
  rw [h]
  decide

/-- The copy phase only appends to the store, and every address it hands out
is fresh (at or beyond the original store's end). -/
theorem copyPhaseH_frame (h : List Node) :
    ∀ (gas : List Nat) (hp : List Node × List Nat),
    (∃ t, hp.1 = h ++ t) → (∀ a ∈ hp.2, h.length ≤ a) →
    (∃ t, (gas.foldl (fun acc a =>
        match acc.1.get? a with
        | some n => (acc.1 ++ [Node.copy n], acc.2 ++ [acc.1.length])
        | none => acc) hp).1 = h ++ t) ∧
    (∀ a ∈ (gas.foldl (fun acc a =>
        match acc.1.get? a with
        | some n => (acc.1 ++ [Node.copy n], acc.2 ++ [acc.1.length])
        | none => acc) hp).2, h.length ≤ a) := by
  intro gas
  induction gas with
  | nil => intro hp h1 h2; exact ⟨h1, h2⟩
  | cons a rest ih =>
    intro hp h1 h2
    rw [List.foldl_cons]
    cases hget : hp.1.get? a with
    | none =>
      simp only [hget]
      exact ih hp h1 h2
    | some n =>
      simp only [hget]
      apply ih
      · obtain ⟨t, ht⟩ := h1
        exact ⟨t ++ [Node.copy n], by rw [ht, List.append_assoc]⟩
      · intro b hb
        rcases List.mem_append.mp hb with hbl | hbr
        · exact h2 b hbl
        · rw [List.mem_singleton] at hbr
          subst hbr
          obtain ⟨t, ht⟩ := h1
          rw [ht, List.length_append]
          omega

/-- The splice phase writes only at the given (fresh) addresses, so every
cell below the original store length keeps its exact contents. -/
theorem phase2_frame (h : List Node) (sub : List Nat) :
    ∀ (addrs : List Nat) (acc : List Node × List Nat),
    (∀ a ∈ addrs, h.length ≤ a) →
    (∀ i, i < h.length → acc.1.get? i = h.get? i) →
    ∀ i, i < h.length →
    ((addrs.foldl (fun acc a =>
        match acc.1.get? a with
        | none => acc
        | some n =>
          if !(sub.contains a) && decide (n.outgoingEdges.length > 0) then
            (acc.1.set a { n with outgoingEdges := pruneEdgesH acc.1 sub n.outgoingEdges },
             acc.2 ++ [a])
          else acc) acc).1).get? i = h.get? i := by
  intro addrs
  induction addrs with
  | nil => intro acc ha hacc i hi; exact hacc i hi
  | cons a rest ih =>
    intro acc ha hacc i hi
    rw [List.foldl_cons]
    have hha : h.length ≤ a := ha a (List.mem_cons_self a rest)
    have harest : ∀ b ∈ rest, h.length ≤ b := fun b hb => ha b (List.mem_cons_of_mem a hb)
    cases hget : acc.1.get? a with
    | none =>
      simp only [hget]
      exact ih acc harest hacc i hi
    | some n =>
      simp only [hget]
      by_cases hcond : (!(sub.contains a) && decide (n.outgoingEdges.length > 0)) = true
      · rw [if_pos hcond]
        apply ih _ harest _ i hi
        intro j hj
        have hne : a ≠ j := by omega
        rw [List.get?_eq_getElem?, List.getElem?_set_ne hne, ← List.get?_eq_getElem?]
        exact hacc j hj
      · rw [if_neg hcond]
        exact ih acc harest hacc i hi

/-- **C9**.  In the heap model, `subtractNodes` leaves every pre-existing
node object byte-for-byte unchanged: all its writes go to freshly allocated
copies, so every address of the original store still holds exactly the same
node (same id, value and outgoing-edge list, hence the same edge weights,
sources, destinations and ids).  The other core operations (`findAllLoops`,
`findNonTouching`, `calculateDenominator` and the rest of
`calculateNumerator`) only read the graph — their embeddings above are pure
functions of it — so `subtractNodes` is the sole writer and the input graph
is unchanged by every core call. -/
theorem C9_subtract_frame (h : List Node) (graphAddrs subtractAddrs : List Nat)
    (i : Nat) (hi : i < h.length) :
    ((subtractNodesH h graphAddrs subtractAddrs).1).get? i = h.get? i := by
  unfold subtractNodesH
  have hcp := copyPhaseH_frame h graphAddrs (h, []) ⟨[], by simp⟩ (by simp)
  unfold copyPhaseH
  apply phase2_frame h subtractAddrs _ _ hcp.2 _ i hi
  intro j hj
  obtain ⟨t, ht⟩ := hcp.1
  rw [ht]
  simp only [List.get?_eq_getElem?]
  exact List.getElem?_append_left hj

/-- **C9** witness: subtracting node `1` from the one-node store leaves the
original cell intact. -/
theorem C9_subtract_frame_witness :
    ((subtractNodesH [chainN1] [0] [0]).1).get? 0 = ([chainN1] : List Node).get? 0 :=
  C9_subtract_frame [chainN1] [0] [0] 0 (by decide)
